import Mathlib

/-!
Verification of the alignment-subproblem cache of `aligner_cache.h` (bowtie2).

The development shallowly embeds the cache data structures and routines:
* `QKey` - the 2-bit-per-base encoded DNA key (`QKey::init`, `QKey::toString`,
  `QKey::cacheable`);
* `SATuple` and `SATuple::randomNarrow` - random subsampling of suffix-array
  tuple lists;
* `AlignmentCache` - one cache tier (query map, reference-substring list,
  suffix-array map and list, pool, version counter) with `query`, `add`,
  `copy`, `clearCopy`, `clear`, `addOnTheFly`;
* `AlignmentCacheIface` - the per-read session machine (`beginAlign`,
  `finishAlign`, `nextRead`, `addOnTheFly`, `resetRead`).

DNA strings are lists of base codes (`0=A, 1=C, 2=G, 3=T, 4=N`).  Machine
integers are modelled as `Nat`; the 64-bit packing applies `% 2^64` exactly
where the C++ `uint64_t` arithmetic wraps, and the `uint32_t` version counter
wraps at `2^32`.  The red-black maps, paged lists and the page pool are
primitives that live outside `aligner_cache.h`; they are modelled from their
contracts (association lists, plain lists, and a slot-counting pool).
-/

/-- `0xffffffff`, the `uint32_t` sentinel marking an uncacheable key length. -/
def badLen : Nat := 4294967295

/-- `2^64`, the modulus of `uint64_t` arithmetic. -/
def U64 : Nat := 18446744073709551616

/-- `2^32`, the modulus of `uint32_t` arithmetic. -/
def U32 : Nat := 4294967296

/-- Key for the query multimap: 2-bit packed sequence (`uint64_t seq`) and its
length (`uint32_t len`), from `struct QKey`. -/
structure QKey where
  seq : Nat
  len : Nat
deriving DecidableEq, Repr

/-- The packing loop of `QKey::init`: for each base `c` in order,
`seq = (seq << 2) | c`, aborting with `false` on an ambiguous base (`c == 4`).
For codes `c < 4` the bitwise or equals addition, so the step is
`seq * 4 + c`, taken mod `2^64` as `seq` is a `uint64_t`. -/
def packLoop : List Nat → Nat → Nat × Bool
  | [], sq => (sq, true)
  | c :: rest, sq =>
    if c = 4 then (sq, false)
    else packLoop rest ((sq * 4 + c) % U64)

/-- `QKey::init`: encode a DNA string.  Lengths over 32 and ambiguous bases
yield an uncacheable key (`len = 0xffffffff`); the `Bool` is the C++ return
value (`true` iff the key is cacheable).  The rightmost character of the
input ends in the least significant bitpair. -/
def QKey.init (s : List Nat) : QKey × Bool :=
  if s.length > 32 then ({ seq := 0, len := badLen }, false)
  else
    let r := packLoop s 0
    if r.2 then ({ seq := r.1, len := s.length }, true)
    else ({ seq := r.1, len := badLen }, false)

/-- The extraction loop of `QKey::toString`: positions are filled from the
right, `s[i] = sq & 3` for `i = len-1` downto `0`, shifting `sq` right by two
bits each time. -/
def unpackLoop : Nat → Nat → List Nat
  | _, 0 => []
  | sq, n + 1 => unpackLoop (sq / 4) n ++ [sq % 4]

/-- `QKey::toString`: decode the packed key back to a DNA string. -/
def QKey.toString (k : QKey) : List Nat :=
  unpackLoop k.seq k.len

/-- `QKey::cacheable`: true iff `len != 0xffffffff`. -/
def QKey.cacheable (k : QKey) : Bool :=
  k.len != badLen

/-- Horner value of a DNA string: the mathematical (unbounded) value packed by
the loop of `QKey::init` (proof-side specification helper). -/
def dnaFold (a : Nat) (s : List Nat) : Nat :=
  s.foldl (fun x c => x * 4 + c) a

theorem dnaFold_nil (a : Nat) : dnaFold a [] = a := rfl

theorem dnaFold_cons (a c : Nat) (s : List Nat) :
    dnaFold a (c :: s) = dnaFold (a * 4 + c) s := rfl

theorem dnaFold_append_singleton (a c : Nat) (s : List Nat) :
    dnaFold a (s ++ [c]) = dnaFold a s * 4 + c := by
  simp [dnaFold, List.foldl_append]

theorem packLoop_no4 (s : List Nat) (a : Nat) (h : ∀ c ∈ s, c ≠ 4) :
    packLoop s (a % U64) = (dnaFold a s % U64, true) := by
  induction s generalizing a with
  | nil => simp [packLoop, dnaFold]
  | cons c rest ih =>
    have hc : c ≠ 4 := h c (by simp)
    have hrest : ∀ x ∈ rest, x ≠ 4 := fun x hx => h x (by simp [hx])
    have hmod : (a % U64 * 4 + c) % U64 = (a * 4 + c) % U64 := by
      conv_lhs => rw [Nat.add_mod, Nat.mul_mod, Nat.mod_mod_of_dvd _ dvd_rfl]
      conv_rhs => rw [Nat.add_mod, Nat.mul_mod]
    simp only [packLoop, if_neg hc, hmod, dnaFold_cons]
    exact ih (a * 4 + c) hrest

theorem packLoop_mem4 (s : List Nat) (a : Nat) (h : 4 ∈ s) :
    (packLoop s a).2 = false := by
  induction s generalizing a with
  | nil => cases h
  | cons c rest ih =>
    by_cases hc : c = 4
    · simp [packLoop, hc]
    · have : 4 ∈ rest := by
        cases h with
        | head => exact absurd rfl hc
        | tail _ h => exact h
      simp [packLoop, hc, ih _ this]

theorem dnaFold_lt (s : List Nat) (a : Nat) (h : ∀ c ∈ s, c < 4) :
    dnaFold a s < (a + 1) * 4 ^ s.length := by
  induction s generalizing a with
  | nil => simp [dnaFold]
  | cons c rest ih =>
    have hc : c < 4 := h c (by simp)
    have hrest : ∀ x ∈ rest, x < 4 := fun x hx => h x (by simp [hx])
    have h1 : dnaFold (a * 4 + c) rest < (a * 4 + c + 1) * 4 ^ rest.length :=
      ih (a * 4 + c) hrest
    have h2 : (a * 4 + c + 1) * 4 ^ rest.length ≤ (a + 1) * 4 ^ (rest.length + 1) := by
      have : a * 4 + c + 1 ≤ (a + 1) * 4 := by omega
      calc (a * 4 + c + 1) * 4 ^ rest.length
          ≤ (a + 1) * 4 * 4 ^ rest.length := Nat.mul_le_mul_right _ this
        _ = (a + 1) * 4 ^ (rest.length + 1) := by ring
    calc dnaFold a (c :: rest) = dnaFold (a * 4 + c) rest := dnaFold_cons a c rest
      _ < (a * 4 + c + 1) * 4 ^ rest.length := h1
      _ ≤ (a + 1) * 4 ^ (c :: rest).length := by simpa using h2

theorem dnaFold_lt_U64 (s : List Nat) (h : ∀ c ∈ s, c < 4) (hlen : s.length ≤ 32) :
    dnaFold 0 s < U64 := by
  have h1 : dnaFold 0 s < 1 * 4 ^ s.length := dnaFold_lt s 0 h
  have h2 : (4 : Nat) ^ s.length ≤ 4 ^ 32 := Nat.pow_le_pow_right (by norm_num) hlen
  have : (4 : Nat) ^ 32 = U64 := by norm_num [U64]
  omega

/-- On a cacheable input, `QKey::init` produces the Horner value and the exact
length. -/
theorem QKey.init_eq (s : List Nat) (h : ∀ c ∈ s, c < 4) (hlen : s.length ≤ 32) :
    QKey.init s = ({ seq := dnaFold 0 s, len := s.length }, true) := by
  have hno4 : ∀ c ∈ s, c ≠ 4 := fun c hc => by have := h c hc; omega
  have hpack : packLoop s 0 = (dnaFold 0 s % U64, true) := by
    have := packLoop_no4 s 0 hno4
    simpa using this
  have hmod : dnaFold 0 s % U64 = dnaFold 0 s :=
    Nat.mod_eq_of_lt (dnaFold_lt_U64 s h hlen)
  simp [QKey.init, Nat.not_lt.mpr hlen, hpack, hmod, Nat.lt_irrefl]

theorem unpackLoop_dnaFold (s : List Nat) (h : ∀ c ∈ s, c < 4) (a : Nat) :
    unpackLoop (dnaFold a s) s.length = s := by
  induction s using List.reverseRecOn generalizing a with
  | nil => simp [unpackLoop, dnaFold]
  | append_singleton s' c ih =>
    have hc : c < 4 := h c (by simp)
    have hs' : ∀ x ∈ s', x < 4 := fun x hx => h x (by simp [hx])
    have hfold : dnaFold a (s' ++ [c]) = dnaFold a s' * 4 + c :=
      dnaFold_append_singleton a c s'
    have hdiv : (dnaFold a s' * 4 + c) / 4 = dnaFold a s' := by omega
    have hmod : (dnaFold a s' * 4 + c) % 4 = c := by omega
    simp only [hfold, List.length_append, List.length_singleton, unpackLoop,
      hdiv, hmod]
    rw [ih hs' a]

/-- The `i`-th base can be read back out of the Horner value:
`dnaFold 0 s / 4^(n-1-i) % 4 = s[i]`. -/
theorem dnaFold_digit (s : List Nat) (h : ∀ c ∈ s, c < 4) (a i : Nat)
    (hi : i < s.length) :
    dnaFold a s / 4 ^ (s.length - 1 - i) % 4 = s.getD i 0 := by
  induction s using List.reverseRecOn generalizing a i with
  | nil => simp at hi
  | append_singleton s' c ih =>
    have hc : c < 4 := h c (by simp)
    have hs' : ∀ x ∈ s', x < 4 := fun x hx => h x (by simp [hx])
    have hfold : dnaFold a (s' ++ [c]) = dnaFold a s' * 4 + c :=
      dnaFold_append_singleton a c s'
    have hlen : (s' ++ [c]).length = s'.length + 1 := by simp
    by_cases hend : i = s'.length
    · subst hend
      have hexp : (s' ++ [c]).length - 1 - s'.length = 0 := by omega
      have hgetD : (s' ++ [c]).getD s'.length 0 = c := by
        simp [List.getD, List.getElem?_append_right (Nat.le_refl s'.length)]
      rw [hfold, hexp, hgetD]
      simp
      omega
    · have hi' : i < s'.length := by
        rw [hlen] at hi; omega
      have hexp : (s' ++ [c]).length - 1 - i = (s'.length - 1 - i) + 1 := by
        rw [hlen]; omega
      have hgetD : (s' ++ [c]).getD i 0 = s'.getD i 0 := by
        simp [List.getD, List.getElem?_append_left hi']
      rw [hfold, hexp, hgetD, pow_succ, Nat.mul_comm (4 ^ (s'.length - 1 - i)) 4,
        ← Nat.div_div_eq_div_mul]
      have hdiv : (dnaFold a s' * 4 + c) / 4 = dnaFold a s' := by omega
      rw [hdiv]
      exact ih hs' a i hi'

/-- C1: for every DNA string `s` over codes `{0,1,2,3}` with `|s| ≤ 32`,
`toString (QKey.init s) = s` and the key is cacheable; and for any `s`
containing code 4 (`N`) or with `|s| > 32`, the encoded key has
`cacheable = false`. -/
theorem C1_qkey_roundtrip (s : List Nat) :
    ((∀ c ∈ s, c < 4) → s.length ≤ 32 →
      (QKey.init s).1.toString = s ∧ (QKey.init s).1.cacheable = true) ∧
    ((4 ∈ s ∨ s.length > 32) → (QKey.init s).1.cacheable = false) := by
  constructor
  · intro h hlen
    rw [QKey.init_eq s h hlen]
    constructor
    · simpa [QKey.toString] using unpackLoop_dnaFold s h 0
    · simp [QKey.cacheable, badLen]
      omega
  · intro hbad
    by_cases hlen : s.length > 32
    · simp [QKey.init, hlen, QKey.cacheable]
    · cases hbad with
      | inl h4 =>
        have hpack : (packLoop s 0).2 = false := packLoop_mem4 s 0 h4
        simp [QKey.init, hlen, hpack, QKey.cacheable]
      | inr h => exact absurd h hlen

/-- Witness for C1 at concrete inputs: `[0,1,2,3]` round-trips and `[0,4]`
(containing `N`) is uncacheable. -/
theorem C1_qkey_roundtrip_witness :
    ((QKey.init [0,1,2,3]).1.toString = [0,1,2,3] ∧
      (QKey.init [0,1,2,3]).1.cacheable = true) ∧
    (QKey.init [0,4]).1.cacheable = false :=
  ⟨(C1_qkey_roundtrip [0,1,2,3]).1 (by decide) (by decide),
   (C1_qkey_roundtrip [0,4]).2 (Or.inl (by decide))⟩

/-- C2 counterexample: on input `"ACGT" = [0,1,2,3]` (cacheable, length 4) the
claim places base `b_0 = A = 0` at bit positions `0..1` of `seq`, i.e.
`seq / 4^0 % 4 = 0`; in fact those bits hold `3` (`T`), because the code puts
the RIGHTMOST character in the least significant bitpair. -/
theorem C2_bitpos_counterexample :
    (QKey.init [0,1,2,3]).1.cacheable = true ∧
    [0,1,2,3].getD 0 0 = 0 ∧
    ¬((QKey.init [0,1,2,3]).1.seq / 4 ^ (2 * 0 / 2) % 4 = 0) := by
  decide

/-- C2 (amended): for every cacheable sequence `b_0 … b_{L-1}` with `L ≤ 32`,
`QKey::init` packs the two-bit code of `b_i` at bit positions
`2(L-1-i) .. 2(L-1-i)+1` of `seq` (the rightmost base in the least
significant bitpair), for every `i < L`. -/
theorem C2_bitpos (s : List Nat) (h : ∀ c ∈ s, c < 4) (hlen : s.length ≤ 32)
    (i : Nat) (hi : i < s.length) :
    (QKey.init s).1.seq / 4 ^ (s.length - 1 - i) % 4 = s.getD i 0 := by
  rw [QKey.init_eq s h hlen]
  exact dnaFold_digit s h 0 i hi

/-- Witness for C2 (amended) at `s = [0,1,2,3]`, `i = 1`:
`27 / 4^2 % 4 = 1 = C`. -/
theorem C2_bitpos_witness :
    (QKey.init [0,1,2,3]).1.seq / 4 ^ ([0,1,2,3].length - 1 - 1) % 4 =
      [0,1,2,3].getD 1 0 :=
  C2_bitpos [0,1,2,3] (by decide) (by decide) 1 (by decide)

/-- C3: encoding `"ACGT" = [0,1,2,3]` yields `seq = 27`, `len = 4`, the
rightmost character `T = 3` occupies the least significant bitpair
(`seq % 4 = 3`), and `toString` reconstructs the input. -/
theorem C3_acgt :
    QKey.init [0,1,2,3] = ({ seq := 27, len := 4 }, true) ∧
    (QKey.init [0,1,2,3]).1.seq % 4 = 3 ∧
    (QKey.init [0,1,2,3]).1.toString = [0,1,2,3] := by
  decide

/-- Suffix-array tuple (`class SATuple`): sequence key, top of the BWT range,
and the slice of offsets.  The C++ `TSlice` (a `PListSlice` view into the
tier's offset list) is modelled by the list of offsets it denotes, so
`offs.size()` is `offs.length`. -/
structure SATuple where
  key : QKey
  top : Nat
  offs : List Nat
deriving DecidableEq, Repr

/-- `SATuple::init(src, first, last)`: the sub-tuple whose top is
`src.top + first` and whose slice narrows `src`'s slice to `[first, last)`. -/
def SATuple.subrange (src : SATuple) (first last : Nat) : SATuple :=
  { key := src.key
    top := src.top + first
    offs := (src.offs.drop first).take (last - first) }

/-- Total number of rows in a list of `SATuple`s (`Σ src[i].offs.size()`). -/
def listCap (l : List SATuple) : Nat :=
  (l.map (fun t => t.offs.length)).sum

/-- Loop state of `SATuple::randomNarrow`: the `on` and `done` flags, the
running row count `totrows`, the sampled row count `totrowsSampled`, and the
destination list built so far. -/
structure NarrowState where
  isOn : Bool
  done : Bool
  totrows : Nat
  sampled : Nat
  dst : List SATuple
deriving DecidableEq, Repr

/-- One iteration of the inner loop of `SATuple::randomNarrow` on tuple `t`
(`done` plays the role of the C++ `break`: once set, remaining iterations do
nothing).  Mirrors the source: when not yet `on`, turn on iff
`off < totrows + t.offs.size()` and emit the slice `[first, first + maxrows)`
clipped to the tuple; when `on`, emit `[0, maxrows - sampled)` clipped; after
either branch (or neither), set `done` when `sampled == maxrows`, otherwise
accumulate `totrows`. -/
def narrowStep (maxrows off : Nat) (s : NarrowState) (t : SATuple) : NarrowState :=
  if s.done then s
  else if s.isOn = false then
    if off < s.totrows + t.offs.length then
      let first := off - s.totrows
      let last := min (first + maxrows) t.offs.length
      let sampled := s.sampled + (last - first)
      let dst := s.dst ++ [t.subrange first last]
      if sampled = maxrows then
        { isOn := true, done := true, totrows := s.totrows, sampled := sampled, dst := dst }
      else
        { isOn := true, done := false, totrows := s.totrows + t.offs.length,
          sampled := sampled, dst := dst }
    else
      if s.sampled = maxrows then { s with done := true }
      else { s with totrows := s.totrows + t.offs.length }
  else
    let last := min (maxrows - s.sampled) t.offs.length
    let sampled := s.sampled + last
    let dst := s.dst ++ [t.subrange 0 last]
    if sampled = maxrows then
      { s with done := true, sampled := sampled, dst := dst }
    else
      { s with totrows := s.totrows + t.offs.length, sampled := sampled, dst := dst }

/-- `SATuple::randomNarrow(src, dst, rnd, maxrows)`: if the total number of
rows is at most `maxrows`, return `false` leaving `dst` alone; otherwise pick
`off = rnd % totrows` and walk the tuple list up to twice (the sample may wrap
around), emitting sub-tuples until `maxrows` rows have been sampled.  `rnd`
stands for the drawn `rnd.nextU32()` value; the result pairs the C++ return
value with the final contents of `dst`. -/
def randomNarrow (src dst : List SATuple) (rnd maxrows : Nat) : Bool × List SATuple :=
  let totrows := listCap src
  if totrows ≤ maxrows then (false, dst)
  else
    let off := rnd % totrows
    let s0 : NarrowState :=
      { isOn := false, done := false, totrows := 0, sampled := 0, dst := dst }
    let s1 := src.foldl (narrowStep maxrows off) s0
    let s2 := if s1.done then s1 else src.foldl (narrowStep maxrows off) s1
    (true, s2.dst)

theorem listCap_nil : listCap [] = 0 := rfl

theorem listCap_cons (t : SATuple) (l : List SATuple) :
    listCap (t :: l) = t.offs.length + listCap l := rfl

theorem listCap_append (l₁ l₂ : List SATuple) :
    listCap (l₁ ++ l₂) = listCap l₁ + listCap l₂ := by
  simp [listCap]

/-- Once `done` is set, the loop does nothing more. -/
theorem narrow_foldl_done (maxrows off : Nat) (l : List SATuple)
    (s : NarrowState) (h : s.done = true) :
    l.foldl (narrowStep maxrows off) s = s := by
  induction l with
  | nil => rfl
  | cons t ts ih =>
    simp only [List.foldl_cons, narrowStep, h, if_true]
    exact ih

/-- Skip phase: while `off` lies beyond all the rows of the prefix, the loop
only accumulates `totrows`. -/
theorem narrow_foldl_skip (maxrows off : Nat) (hm : 1 ≤ maxrows)
    (l : List SATuple) :
    ∀ (c : Nat) (d : List SATuple), c + listCap l ≤ off →
      l.foldl (narrowStep maxrows off)
        { isOn := false, done := false, totrows := c, sampled := 0, dst := d } =
      { isOn := false, done := false, totrows := c + listCap l, sampled := 0, dst := d } := by
  induction l with
  | nil => intro c d _; simp [listCap_nil]
  | cons t ts ih =>
    intro c d h
    rw [listCap_cons] at h
    have hnot : ¬ off < c + t.offs.length := by omega
    have hs : (0 : Nat) ≠ maxrows := by omega
    have hstep : narrowStep maxrows off
        { isOn := false, done := false, totrows := c, sampled := 0, dst := d } t =
        { isOn := false, done := false, totrows := c + t.offs.length, sampled := 0, dst := d } := by
      simp [narrowStep, hnot, hs]
    rw [List.foldl_cons, hstep]
    have := ih (c + t.offs.length) d (by omega)
    simpa [listCap_cons, Nat.add_assoc] using this

theorem subrange_length (t : SATuple) (first last : Nat) (h : last ≤ t.offs.length) :
    (t.subrange first last).offs.length = last - first := by
  simp only [SATuple.subrange, List.length_take, List.length_drop]
  exact Nat.min_eq_left (by omega)

theorem take_length_add {α : Type} (l₁ l₂ : List α) (i : Nat) :
    (l₁ ++ l₂).take (l₁.length + i) = l₁ ++ l₂.take i := by
  induction l₁ with
  | nil => simp
  | cons x xs ih =>
    have hlen : (x :: xs).length + i = (xs.length + i) + 1 := by
      simp [Nat.add_comm, Nat.add_assoc, Nat.add_left_comm]
    rw [List.cons_append, hlen, List.take_succ_cons, ih, List.cons_append]

/-- Sampling phase: once `on`, the loop keeps emitting clipped sub-tuples
until exactly `maxrows` rows have been sampled; provided the remaining
capacity suffices, it finishes with `done` set, having appended a non-empty
block `A` of sub-tuples whose lengths sum to the missing row count, and the
number of appended tuples is bounded by any prefix length whose capacity
already covers the missing rows. -/
theorem narrow_foldl_on (maxrows off : Nat) (l : List SATuple) :
    ∀ (sampled tr : Nat) (d : List SATuple),
      sampled < maxrows → maxrows ≤ sampled + listCap l →
      ∃ A tr2,
        l.foldl (narrowStep maxrows off)
          { isOn := true, done := false, totrows := tr, sampled := sampled, dst := d } =
        { isOn := true, done := true, totrows := tr2, sampled := maxrows, dst := d ++ A } ∧
        listCap A = maxrows - sampled ∧ A ≠ [] ∧
        (∀ j, maxrows ≤ sampled + listCap (l.take j) → A.length ≤ j) := by
  induction l with
  | nil =>
    intro sampled tr d h1 h2
    rw [listCap_nil] at h2
    omega
  | cons t ts ih =>
    intro sampled tr d h1 h2
    rw [listCap_cons] at h2
    by_cases hfin : sampled + min (maxrows - sampled) t.offs.length = maxrows
    · -- this tuple completes the sample
      have hstep : narrowStep maxrows off
          { isOn := true, done := false, totrows := tr, sampled := sampled, dst := d } t =
          { isOn := true, done := true, totrows := tr, sampled := maxrows,
            dst := d ++ [t.subrange 0 (min (maxrows - sampled) t.offs.length)] } := by
        simp [narrowStep, hfin]
      rw [List.foldl_cons, hstep, narrow_foldl_done _ _ _ _ rfl]
      refine ⟨[t.subrange 0 (min (maxrows - sampled) t.offs.length)], tr, rfl, ?_, by simp, ?_⟩
      · rw [listCap_cons, listCap_nil,
          subrange_length _ _ _ (Nat.min_le_right _ _)]
        omega
      · intro j hj
        match j with
        | 0 => rw [List.take_zero, listCap_nil] at hj; omega
        | j + 1 => simp only [List.length_singleton]; omega
    · -- the whole tuple is consumed and sampling continues
      have hlast : min (maxrows - sampled) t.offs.length = t.offs.length := by
        rcases Nat.le_total (maxrows - sampled) t.offs.length with hle | hle
        · rw [Nat.min_eq_left hle] at hfin ⊢
          omega
        · exact Nat.min_eq_right hle
      have hlen_le : t.offs.length ≤ maxrows - sampled := by
        by_contra hcon
        push_neg at hcon
        rw [Nat.min_eq_left (by omega)] at hlast
        omega
      have hlt : sampled + t.offs.length < maxrows := by
        rw [hlast] at hfin
        omega
      have hne3 : ¬ (sampled + t.offs.length = maxrows) := by omega
      have hstep : narrowStep maxrows off
          { isOn := true, done := false, totrows := tr, sampled := sampled, dst := d } t =
          { isOn := true, done := false, totrows := tr + t.offs.length,
            sampled := sampled + t.offs.length,
            dst := d ++ [t.subrange 0 t.offs.length] } := by
        simp [narrowStep, hlast, hne3]
      rw [List.foldl_cons, hstep]
      obtain ⟨A', tr2, heq, hcap, hne, hbound⟩ :=
        ih (sampled + t.offs.length) (tr + t.offs.length)
          (d ++ [t.subrange 0 t.offs.length]) hlt (by omega)
      refine ⟨t.subrange 0 t.offs.length :: A', tr2, ?_, ?_, by simp, ?_⟩
      · rw [heq, List.append_assoc]
        rfl
      · rw [listCap_cons, hcap, subrange_length _ _ _ (Nat.le_refl _)]
        omega
      · intro j hj
        match j with
        | 0 => rw [List.take_zero, listCap_nil] at hj; omega
        | j + 1 =>
          rw [List.take_succ_cons, listCap_cons] at hj
          have := hbound j (by omega)
          simp only [List.length_cons]
          omega

/-- Any in-range row offset falls inside a unique tuple of the list. -/
theorem cap_split : ∀ (l : List SATuple) (off : Nat), off < listCap l →
    ∃ P t R, l = P ++ t :: R ∧ listCap P ≤ off ∧ off < listCap P + t.offs.length := by
  intro l
  induction l with
  | nil => intro off h; rw [listCap_nil] at h; omega
  | cons t ts ih =>
    intro off h
    by_cases h1 : off < t.offs.length
    · exact ⟨[], t, ts, rfl, Nat.zero_le _, by simpa [listCap_nil] using h1⟩
    · rw [listCap_cons] at h
      obtain ⟨P, u, R, hsplit, hP1, hP2⟩ := ih (off - t.offs.length) (by omega)
      refine ⟨t :: P, u, R, by rw [hsplit, List.cons_append], ?_, ?_⟩
      · rw [listCap_cons]; omega
      · rw [listCap_cons]; omega

/-- When the total exceeds `maxrows`, `randomNarrow` returns `true` and its
destination is the one computed by two passes of the sampling loop (the
second pass is a no-op whenever the first already finished). -/
theorem randomNarrow_gt (src dst : List SATuple) (rnd maxrows off : Nat)
    (h : ¬ listCap src ≤ maxrows) (hoff : off = rnd % listCap src) :
    randomNarrow src dst rnd maxrows =
      (true, (List.foldl (narrowStep maxrows off)
        (List.foldl (narrowStep maxrows off)
          { isOn := false, done := false, totrows := 0, sampled := 0, dst := dst } src) src).dst) := by
  subst hoff
  simp only [randomNarrow, if_neg h]
  by_cases hd : (List.foldl (narrowStep maxrows (rnd % listCap src))
      { isOn := false, done := false, totrows := 0, sampled := 0, dst := dst } src).done = true
  · rw [if_pos hd, narrow_foldl_done _ _ _ _ hd]
  · rw [if_neg hd]

/-- C4 (amended with `1 ≤ maxrows`): for `randomNarrow(src, dst, rnd, maxrows)`
with `total = Σ src[i].offs.size()`: if `total ≤ maxrows` it returns `false`
and leaves `dst` unchanged; if `total > maxrows` it returns `true` and appends
to `dst` a non-empty block of tuples whose slice lengths sum to exactly
`maxrows`, of at most `src.size() + 1` tuples — for every source list and
every random draw. -/
theorem C4_randomNarrow (src dst : List SATuple) (rnd maxrows : Nat)
    (hm : 1 ≤ maxrows) :
    (listCap src ≤ maxrows → randomNarrow src dst rnd maxrows = (false, dst)) ∧
    (maxrows < listCap src →
      (randomNarrow src dst rnd maxrows).1 = true ∧
      ∃ A, (randomNarrow src dst rnd maxrows).2 = dst ++ A ∧
        listCap A = maxrows ∧ A ≠ [] ∧ A.length ≤ src.length + 1) := by
  constructor
  · intro h
    simp only [randomNarrow, if_pos h]
  · intro h
    have hnle : ¬ listCap src ≤ maxrows := by omega
    have hpos : 0 < listCap src := by omega
    set off := rnd % listCap src with hoffdef
    have hofflt : off < listCap src := Nat.mod_lt _ hpos
    obtain ⟨P, t, R, hsplit, hP1, hP2⟩ := cap_split src off hofflt
    have hcap_src : listCap src = listCap P + (t.offs.length + listCap R) := by
      rw [hsplit, listCap_append, listCap_cons]
    rw [randomNarrow_gt src dst rnd maxrows off hnle hoffdef]
    have hskip : List.foldl (narrowStep maxrows off)
        { isOn := false, done := false, totrows := 0, sampled := 0, dst := dst } P =
        { isOn := false, done := false, totrows := listCap P, sampled := 0, dst := dst } := by
      have := narrow_foldl_skip maxrows off hm P 0 dst (by omega)
      simpa using this
    have hfold1 : List.foldl (narrowStep maxrows off)
        { isOn := false, done := false, totrows := 0, sampled := 0, dst := dst } src =
        List.foldl (narrowStep maxrows off)
          (narrowStep maxrows off
            { isOn := false, done := false, totrows := listCap P, sampled := 0, dst := dst } t) R := by
      conv_lhs => rw [hsplit]
      rw [List.foldl_append, hskip, List.foldl_cons]
    by_cases hqm : min (off - listCap P + maxrows) t.offs.length - (off - listCap P) = maxrows
    · -- the sample fits inside the tuple containing `off`
      have hstepA : narrowStep maxrows off
          { isOn := false, done := false, totrows := listCap P, sampled := 0, dst := dst } t =
          { isOn := true, done := true, totrows := listCap P, sampled := maxrows,
            dst := dst ++ [t.subrange (off - listCap P)
              (min (off - listCap P + maxrows) t.offs.length)] } := by
        simp [narrowStep, hP2, hqm]
      rw [hfold1, hstepA, narrow_foldl_done maxrows off R _ rfl,
        narrow_foldl_done maxrows off src _ rfl]
      refine ⟨rfl, [t.subrange (off - listCap P)
        (min (off - listCap P + maxrows) t.offs.length)], rfl, ?_, by simp, by simp⟩
      rw [listCap_cons, listCap_nil,
        subrange_length _ _ _ (Nat.min_le_right _ _), Nat.add_zero, hqm]
    · -- the sample wraps past the end of this tuple
      have hfirst_lt : off - listCap P < t.offs.length := by omega
      have hminr : min (off - listCap P + maxrows) t.offs.length = t.offs.length := by
        rcases Nat.le_total (off - listCap P + maxrows) t.offs.length with hle | hle
        · rw [Nat.min_eq_left hle] at hqm ⊢
          omega
        · exact Nat.min_eq_right hle
      rw [hminr] at hqm
      have hq_lt : t.offs.length - (off - listCap P) < maxrows := by
        rcases Nat.le_total (off - listCap P + maxrows) t.offs.length with hle | hle
        · rw [Nat.min_eq_left hle] at hminr
          omega
        · omega
      have hstepB : narrowStep maxrows off
          { isOn := false, done := false, totrows := listCap P, sampled := 0, dst := dst } t =
          { isOn := true, done := false, totrows := listCap P + t.offs.length,
            sampled := t.offs.length - (off - listCap P),
            dst := dst ++ [t.subrange (off - listCap P) t.offs.length] } := by
        simp [narrowStep, hP2, hminr, hqm]
      rw [hfold1, hstepB, ← List.foldl_append]
      obtain ⟨A', tr2, heq, hcapA', hneA', hbound⟩ :=
        narrow_foldl_on maxrows off (R ++ src)
          (t.offs.length - (off - listCap P)) (listCap P + t.offs.length)
          (dst ++ [t.subrange (off - listCap P) t.offs.length]) hq_lt
          (by rw [listCap_append]; omega)
      rw [heq]
      refine ⟨rfl, t.subrange (off - listCap P) t.offs.length :: A', ?_, ?_, by simp, ?_⟩
      · rw [List.append_assoc]
        rfl
      · rw [listCap_cons, hcapA', subrange_length _ _ _ (Nat.le_refl _)]
        omega
      · have htake : (R ++ src).take (R.length + (P.length + 1)) = R ++ (P ++ [t]) := by
          rw [take_length_add]
          conv_lhs => rw [hsplit]
          rw [take_length_add]
          rfl
        have hj := hbound (R.length + (P.length + 1)) (by
          rw [htake, listCap_append, listCap_append, listCap_cons, listCap_nil]
          omega)
        have hslen : src.length = P.length + 1 + R.length := by
          rw [hsplit, List.length_append, List.length_cons]
          omega
        simp only [List.length_cons]
        omega

/-- A concrete two-row tuple, used in concrete instances below. -/
def sampleTup1 : SATuple :=
  { key := { seq := 0, len := 2 }, top := 5, offs := [7, 9] }

/-- A concrete one-row tuple, used in concrete instances below. -/
def sampleTup2 : SATuple :=
  { key := { seq := 1, len := 1 }, top := 3, offs := [4] }

/-- C4 counterexample: with `maxrows = 0` and the offset drawn inside the
second tuple, `randomNarrow` hits the unconditional `totrowsSampled == maxrows`
check before turning sampling on: it returns `true` with `dst` still empty,
contradicting the claimed non-emptiness of the destination (the function's
own debug assertion `assert(!dst.empty())` also fails there). -/
theorem C4_randomNarrow_counterexample :
    0 < listCap [sampleTup2, sampleTup2] ∧
    randomNarrow [sampleTup2, sampleTup2] [] 1 0 = (true, []) := by
  decide

/-- Witness for C4 at concrete inputs: a two-tuple list with 3 rows narrowed
to 2 rows (wrapping draw), and a list whose total does not exceed `maxrows`. -/
theorem C4_randomNarrow_witness :
    ((randomNarrow [sampleTup1, sampleTup2] [] 2 2).1 = true ∧
      ∃ A, (randomNarrow [sampleTup1, sampleTup2] [] 2 2).2 = [] ++ A ∧
        listCap A = 2 ∧ A ≠ [] ∧
        A.length ≤ [sampleTup1, sampleTup2].length + 1) ∧
    randomNarrow [sampleTup1] [] 0 2 = (false, []) :=
  ⟨(C4_randomNarrow [sampleTup1, sampleTup2] [] 2 2 (by decide)).2 (by decide),
   (C4_randomNarrow [sampleTup1] [] 0 2 (by decide)).1 (by decide)⟩

/-- Payload for the query multimap (`class QVal`): index of the first element
in the qlist (`i_`), number of ranges (`rangen_`) and number of elements
(`eltn_`), both `uint32_t` with sentinel `0xffffffff` for the invalid state. -/
structure QVal where
  i : Nat
  rangen : Nat
  eltn : Nat
deriving DecidableEq, Repr

/-- `QVal::reset`: the invalid state `i = 0`, `rangen = eltn = 0xffffffff`
(also the state of a default-constructed `QVal`). -/
def QVal.reset : QVal :=
  { i := 0, rangen := badLen, eltn := badLen }

/-- `QVal::valid`: true iff `rangen != 0xffffffff`. -/
def QVal.valid (v : QVal) : Bool :=
  v.rangen != badLen

/-- Payload for the suffix-array multimap (`struct SAVal`): top of the BWT
range, index of the first element in the salist, and range length. -/
structure SAVal where
  top : Nat
  i : Nat
  len : Nat
deriving DecidableEq, Repr

/-- Lookup in an association list keyed by `QKey` (model of
`RedBlack::lookup`, a primitive outside `aligner_cache.h`). -/
def assocFind {α : Type} : List (QKey × α) → QKey → Option α
  | [], _ => none
  | p :: rest, k => if p.1 = k then some p.2 else assocFind rest k

/-- In-place update of the value bound to an existing key (model of writing
through the payload pointer of a red-black node). -/
def assocSet {α : Type} : List (QKey × α) → QKey → α → List (QKey × α)
  | [], _, _ => []
  | p :: rest, k, v => if p.1 = k then (k, v) :: rest else p :: assocSet rest k v

/-- One cache tier (`class AlignmentCache`): the pool, the query map `qmap_`,
the reference-substring list `qlist_`, the suffix-array map `samap_`, the
offset list `salist_`, the `shared_` flag and the `uint32_t` version counter.
The `Pool`, `RedBlack` and `PList` primitives live outside `aligner_cache.h`;
they are modelled from their contracts: maps are association lists, paged
lists are lists, and the pool is a slot counter (`poolCap` the budget,
`pool` the remaining slots; every map-node or list-element allocation
consumes one slot and fails when none remain). -/
structure AlignmentCache where
  poolCap : Nat
  pool : Nat
  qmap : List (QKey × QVal)
  qlist : List QKey
  samap : List (QKey × SAVal)
  salist : List Nat
  shared : Bool
  version : Nat
deriving DecidableEq, Repr

/-- `AlignmentCache::query`: return the payload bound to `k`, if any. -/
def AlignmentCache.query (c : AlignmentCache) (k : QKey) : Option QVal :=
  assocFind c.qmap k

/-- `AlignmentCache::add`: insert `qk` in `qmap_` (no-op if present) and
return `(tier, handle-non-null, added)` - the C++ returns a payload pointer
(null on pool exhaustion) and sets `*added` iff a new node was created.
A fresh node carries the default (invalid) `QVal`. -/
def AlignmentCache.add (c : AlignmentCache) (k : QKey) : AlignmentCache × Bool × Bool :=
  match assocFind c.qmap k with
  | some _ => (c, true, false)
  | none =>
    if c.pool = 0 then (c, false, false)
    else ({ c with qmap := c.qmap ++ [(k, QVal.reset)], pool := c.pool - 1 }, true, true)

/-- `AlignmentCache::clear`: reset all four containers and the pool and bump
the `uint32_t` version counter (wrapping at `2^32`). -/
def AlignmentCache.clear (c : AlignmentCache) : AlignmentCache :=
  { c with
    pool := c.poolCap
    qmap := []
    qlist := []
    samap := []
    salist := []
    version := (c.version + 1) % U32 }

/-- `AlignmentCache::queryQval`: materialize the `SATuple`s of a `QVal`: for
each index in `[qv.i, qv.i + qv.rangen)` fetch the `SAKey` from `qlist_`, look
it up in `samap_` and take the `salist_` slice `[sav.i, sav.i + sav.len)`.
(The C++ appends to a caller-supplied list; the model returns the appended
records.) -/
def AlignmentCache.queryQval (c : AlignmentCache) (qv : QVal) : List SATuple :=
  (List.range qv.rangen).map (fun j =>
    let sak := c.qlist.getD (qv.i + j) { seq := 0, len := badLen }
    let sav := (assocFind c.samap sak).getD { top := 0, i := 0, len := 0 }
    { key := sak, top := sav.top, offs := (c.salist.drop sav.i).take sav.len })

/-- `AlignmentCache::queryEx`: look up `k` and materialize its tuples. -/
def AlignmentCache.queryEx (c : AlignmentCache) (k : QKey) : List SATuple :=
  match c.query k with
  | some qv => c.queryQval qv
  | none => []

/-- `AlignmentCache::qNumKeys`. -/
def AlignmentCache.qNumKeys (c : AlignmentCache) : Nat := c.qmap.length

/-- `AlignmentCache::saNumKeys`. -/
def AlignmentCache.saNumKeys (c : AlignmentCache) : Nat := c.samap.length

/-- `AlignmentCache::qSize`. -/
def AlignmentCache.qSize (c : AlignmentCache) : Nat := c.qlist.length

/-- `AlignmentCache::saSize`. -/
def AlignmentCache.saSize (c : AlignmentCache) : Nat := c.salist.length

/-- The inner loop of `AlignmentCache::copy`: append the given offset values
to `salist_`, one pool slot each; stop with `false` on exhaustion. -/
def AlignmentCache.salistCopy (d : AlignmentCache) : List Nat → AlignmentCache × Bool
  | [] => (d, true)
  | x :: rest =>
    if d.pool = 0 then (d, false)
    else AlignmentCache.salistCopy
      { d with salist := d.salist ++ [x], pool := d.pool - 1 } rest

/-- One iteration of the main loop of `AlignmentCache::copy`: append `sak` to
`qlist_`; if `sak` is new to `samap_`, insert it with a payload pointing at
the end of `salist_` and copy the source's offset slice. -/
def AlignmentCache.copyStep (d : AlignmentCache) (src : AlignmentCache) (sak : QKey) :
    AlignmentCache × Bool :=
  if d.pool = 0 then (d, false)
  else
    let d1 := { d with qlist := d.qlist ++ [sak], pool := d.pool - 1 }
    let sav := (assocFind src.samap sak).getD { top := 0, i := 0, len := 0 }
    match assocFind d1.samap sak with
    | some _ => (d1, true)
    | none =>
      if d1.pool = 0 then (d1, false)
      else
        AlignmentCache.salistCopy
          { d1 with
            samap := d1.samap ++
              [(sak, { top := sav.top, i := d1.salist.length, len := sav.len })],
            pool := d1.pool - 1 }
          ((List.range sav.len).map (fun j => src.salist.getD (sav.i + j) 0))

/-- The main loop of `AlignmentCache::copy` over the source's `SAKey` run;
stops with `false` as soon as a step fails. -/
def AlignmentCache.copyRanges (d : AlignmentCache) (src : AlignmentCache) :
    List QKey → AlignmentCache × Bool
  | [] => (d, true)
  | sak :: rest =>
    match AlignmentCache.copyStep d src sak with
    | (d1, true) => AlignmentCache.copyRanges d1 src rest
    | (d1, false) => (d1, false)

/-- `AlignmentCache::copy`: deep-clone one query entry from `src` into `d`.
If `qk` is already present (`!added`), return `true` with no changes (the C++
does this even when the add returned a null handle).  Otherwise initialize
the new payload to `(|qlist_|, qv.rangen, qv.eltn)` and copy the referenced
`SAKey`s, `SAVal`s and offset slices; `false` on pool exhaustion (the tier
may be left partially mutated). -/
def AlignmentCache.copy (d : AlignmentCache) (qk : QKey) (qv : QVal)
    (src : AlignmentCache) : AlignmentCache × Bool :=
  let r := AlignmentCache.add d qk
  if r.2.2 = false then (d, true)
  else
    let d1 := r.1
    let d2 := { d1 with
      qmap := assocSet d1.qmap qk
        { i := d1.qlist.length, rangen := qv.rangen, eltn := qv.eltn } }
    AlignmentCache.copyRanges d2 src
      ((List.range qv.rangen).map (fun j => src.qlist.getD (qv.i + j) { seq := 0, len := badLen }))

/-- `AlignmentCache::clearCopy`: try `copy`; on failure clear the (partially
mutated) tier and retry once; return true iff the clear happened. -/
def AlignmentCache.clearCopy (d : AlignmentCache) (qk : QKey) (qv : QVal)
    (src : AlignmentCache) : AlignmentCache × Bool :=
  match AlignmentCache.copy d qk qv src with
  | (d1, true) => (d1, false)
  | (d1, false) =>
    ((AlignmentCache.copy (AlignmentCache.clear d1) qk qv src).1, true)

/-- Modelled from the spec: the body of `AlignmentCache::addOnTheFly` is not
in `aligner_cache.h` (the header only declares it); following spec §4.D it
appends `sak` to `QList`, inserts a fresh `SAVal{top, |SAList|, bot - top}`
into `SAMap` when absent together with `bot - top` placeholder entries in
`SAList`, increments the `QVal` counters by `1` and `bot - top`, and returns
`false` when a pool allocation fails (with the tier possibly left partially
mutated; counters are modelled as updated only on success). -/
def AlignmentCache.addOnTheFly (c : AlignmentCache) (qv : QVal) (sak : QKey)
    (topf botf : Nat) : AlignmentCache × QVal × Bool :=
  if c.pool = 0 then (c, qv, false)
  else
    let c1 := { c with qlist := c.qlist ++ [sak], pool := c.pool - 1 }
    match assocFind c1.samap sak with
    | some _ =>
      (c1, { qv with rangen := qv.rangen + 1, eltn := qv.eltn + (botf - topf) }, true)
    | none =>
      if c1.pool < 1 + (botf - topf) then (c1, qv, false)
      else
        ({ c1 with
            samap := c1.samap ++
              [(sak, { top := topf, i := c1.salist.length, len := botf - topf })],
            salist := c1.salist ++ List.replicate (botf - topf) 0,
            pool := c1.pool - (1 + (botf - topf)) },
         { qv with rangen := qv.rangen + 1, eltn := qv.eltn + (botf - topf) }, true)

theorem salistCopy_version (elems : List Nat) :
    ∀ d : AlignmentCache, (AlignmentCache.salistCopy d elems).1.version = d.version := by
  induction elems with
  | nil => intro d; rfl
  | cons x rest ih =>
    intro d
    by_cases hp : d.pool = 0
    · simp [AlignmentCache.salistCopy, hp]
    · simp only [AlignmentCache.salistCopy, if_neg hp]
      rw [ih]

theorem copyStep_version (d src : AlignmentCache) (sak : QKey) :
    (AlignmentCache.copyStep d src sak).1.version = d.version := by
  by_cases hp : d.pool = 0
  · simp [AlignmentCache.copyStep, hp]
  · simp only [AlignmentCache.copyStep, if_neg hp]
    rcases hfind : assocFind
        { d with qlist := d.qlist ++ [sak], pool := d.pool - 1 }.samap sak with _ | sav0
    · simp only [hfind]
      by_cases hp1 : d.pool - 1 = 0
      · simp [hp1]
      · simp [hp1, salistCopy_version]
    · simp [hfind]

theorem copyRanges_version (saks : List QKey) :
    ∀ d src : AlignmentCache, (AlignmentCache.copyRanges d src saks).1.version = d.version := by
  induction saks with
  | nil => intro d src; rfl
  | cons sak rest ih =>
    intro d src
    rcases hstep : AlignmentCache.copyStep d src sak with ⟨d1, ok⟩
    have hv : d1.version = d.version := by
      have := copyStep_version d src sak
      rw [hstep] at this
      exact this
    cases ok with
    | true => simp only [AlignmentCache.copyRanges, hstep]; rw [ih, hv]
    | false => simp only [AlignmentCache.copyRanges, hstep]; exact hv

theorem copy_version (d src : AlignmentCache) (qk : QKey) (qv : QVal) :
    (AlignmentCache.copy d qk qv src).1.version = d.version := by
  rcases hadd : AlignmentCache.add d qk with ⟨d1, ok, added⟩
  have hv : d1.version = d.version := by
    unfold AlignmentCache.add at hadd
    rcases hfind : assocFind d.qmap qk with _ | v
    · rw [hfind] at hadd
      by_cases hp : d.pool = 0
      · rw [if_pos hp] at hadd
        cases hadd
        rfl
      · rw [if_neg hp] at hadd
        cases hadd
        rfl
    · rw [hfind] at hadd
      cases hadd
      rfl
  cases added with
  | false => simp [AlignmentCache.copy, hadd]
  | true =>
    simp only [AlignmentCache.copy, hadd]
    rw [if_neg (by simp), copyRanges_version]
    exact hv

/-- C7: if the destination tier's `qmap` already contains `qk`,
`AlignmentCache::copy` returns `true` and leaves the destination completely
unchanged (first-wins duplicate policy). -/
theorem C7_copy_duplicate (d src : AlignmentCache) (qk : QKey) (qv : QVal)
    (h : (AlignmentCache.query d qk).isSome = true) :
    AlignmentCache.copy d qk qv src = (d, true) := by
  obtain ⟨v, hv⟩ := Option.isSome_iff_exists.mp h
  have hfind : assocFind d.qmap qk = some v := hv
  have hadd : AlignmentCache.add d qk = (d, true, false) := by
    unfold AlignmentCache.add
    rw [hfind]
  simp [AlignmentCache.copy, hadd]

/-- A concrete empty tier with a small pool, used in concrete instances. -/
def cache0 : AlignmentCache :=
  { poolCap := 4, pool := 4, qmap := [], qlist := [], samap := [], salist := [],
    shared := false, version := 0 }

/-- A concrete tier already holding the key `⟨27, 4⟩`, used in concrete
instances. -/
def cacheWithKey : AlignmentCache :=
  { poolCap := 4, pool := 3,
    qmap := [({ seq := 27, len := 4 }, { i := 0, rangen := 0, eltn := 0 })],
    qlist := [], samap := [], salist := [], shared := false, version := 0 }

/-- Witness for C7: copying key `⟨27, 4⟩` into a tier that already holds it
returns `true` and changes nothing. -/
theorem C7_copy_duplicate_witness :
    AlignmentCache.copy cacheWithKey { seq := 27, len := 4 }
      { i := 0, rangen := 0, eltn := 0 } cache0 = (cacheWithKey, true) :=
  C7_copy_duplicate cacheWithKey cache0 { seq := 27, len := 4 }
    { i := 0, rangen := 0, eltn := 0 } (by decide)

/-- C8 (amended for the `uint32_t` wrap): `clear()` sets the version to
`(version + 1) mod 2^32` - a strict increase whenever the counter is below
`2^32 - 1` - and no state-producing tier operation other than `clear`
(`add`, `addOnTheFly`, `copy`) changes the version; `query`, `queryEx`,
`queryQval` and the accessors are read-only functions of the tier and return
no modified tier at all. -/
theorem C8_version (c src : AlignmentCache) (k qk sak : QKey) (qv : QVal)
    (topf botf : Nat) :
    (AlignmentCache.clear c).version = (c.version + 1) % U32 ∧
    (c.version < U32 - 1 → c.version < (AlignmentCache.clear c).version) ∧
    (AlignmentCache.add c k).1.version = c.version ∧
    (AlignmentCache.addOnTheFly c qv sak topf botf).1.version = c.version ∧
    (AlignmentCache.copy c qk qv src).1.version = c.version := by
  refine ⟨rfl, ?_, ?_, ?_, copy_version c src qk qv⟩
  · intro h
    have : (c.version + 1) % U32 = c.version + 1 := by
      apply Nat.mod_eq_of_lt
      unfold U32 at h ⊢
      omega
    show c.version < (c.version + 1) % U32
    omega
  · unfold AlignmentCache.add
    rcases hfind : assocFind c.qmap k with _ | v
    · by_cases hp : c.pool = 0
      · simp [hp]
      · simp [hp]
    · simp
  · unfold AlignmentCache.addOnTheFly
    by_cases hp : c.pool = 0
    · simp [hp]
    · simp only [if_neg hp]
      rcases hfind : assocFind
          { c with qlist := c.qlist ++ [sak], pool := c.pool - 1 }.samap sak with _ | sav
      · simp only [hfind]
        by_cases hp2 : ({ c with qlist := c.qlist ++ [sak], pool := c.pool - 1 } :
            AlignmentCache).pool < 1 + (botf - topf)
        · simp [hp2]
        · simp [hp2]
      · simp [hfind]

/-- C8 counterexample: at version `2^32 - 1` (its `uint32_t` maximum) a
`clear()` wraps the counter to `0`, which is not a strict increase. -/
theorem C8_version_counterexample :
    (AlignmentCache.clear
      { poolCap := 1, pool := 1, qmap := [], qlist := [], samap := [], salist := [],
        shared := false, version := 4294967295 }).version = 0 ∧
    ¬ (4294967295 : Nat) <
      (AlignmentCache.clear
        { poolCap := 1, pool := 1, qmap := [], qlist := [], samap := [], salist := [],
          shared := false, version := 4294967295 }).version := by
  decide

/-- Witness for C8 at a concrete tier with version `0`: `clear` bumps it to
`1` and `add`, `addOnTheFly`, `copy` leave it at `0`. -/
theorem C8_version_witness :
    (AlignmentCache.clear cache0).version = (cache0.version + 1) % U32 ∧
    cache0.version < (AlignmentCache.clear cache0).version ∧
    (AlignmentCache.add cache0 { seq := 27, len := 4 }).1.version = cache0.version ∧
    (AlignmentCache.addOnTheFly cache0 QVal.reset { seq := 27, len := 4 } 2 5).1.version =
      cache0.version ∧
    (AlignmentCache.copy cache0 { seq := 27, len := 4 } QVal.reset cache0).1.version =
      cache0.version := by
  have h := C8_version cache0 cache0 { seq := 27, len := 4 } { seq := 27, len := 4 }
    { seq := 27, len := 4 } QVal.reset 2 5
  exact ⟨h.1, h.2.1 (by decide), h.2.2.1, h.2.2.2.1, h.2.2.2.2⟩

/-- Where the session's payload handle `qv_` points: at the node for key `k`
in the current-read tier, or at the stack-resident buffer `qvbuf_`.
`Option QvHandle` models the pointer, `none` being NULL. -/
inductive QvHandle where
  | cur (k : QKey)
  | buf
deriving DecidableEq, Repr

/-- The session interface (`class AlignmentCacheIface`): session key `qk_`,
payload handle `qv_`, buffer `qvbuf_`, the `cacheable_` flag, the running
counters `rangen_` / `eltsn_`, the required current-read tier `current_`, and
the optional across-read tiers `local_` / `shared_` (named `localCache` /
`sharedCache` here since `local` is reserved). -/
structure AlignmentCacheIface where
  qk : QKey
  qv : Option QvHandle
  qvbuf : QVal
  cacheableFlag : Bool
  rangen : Nat
  eltsn : Nat
  current : AlignmentCache
  localCache : Option AlignmentCache
  sharedCache : Option AlignmentCache
deriving DecidableEq, Repr

/-- Dereference the payload handle (`*qv_`). -/
def AlignmentCacheIface.readHandle (i : AlignmentCacheIface) (h : QvHandle) : QVal :=
  match h with
  | .cur k => (assocFind i.current.qmap k).getD QVal.reset
  | .buf => i.qvbuf

/-- Write through the payload handle (`qv_->...` mutations). -/
def AlignmentCacheIface.writeHandle (i : AlignmentCacheIface) (h : QvHandle)
    (v : QVal) : AlignmentCacheIface :=
  match h with
  | .cur k => { i with current := { i.current with qmap := assocSet i.current.qmap k v } }
  | .buf => { i with qvbuf := v }

/-- `AlignmentCacheIface::resetRead`: clear the `cacheable_` flag, zero the
running counters, and null the payload handle. -/
def AlignmentCacheIface.resetRead (i : AlignmentCacheIface) : AlignmentCacheIface :=
  { i with
    cacheableFlag := false
    rangen := 0
    eltsn := 0
    qv := none }

/-- `AlignmentCacheIface::aligning`: true iff the payload handle is live. -/
def AlignmentCacheIface.aligning (i : AlignmentCacheIface) : Bool :=
  i.qv.isSome

/-- The add-or-buffer step of `beginAlign`: for a cacheable key, ask the
current tier's `add` for a payload handle (null on pool exhaustion), recording
the `added` flag in `cacheable_`; for an uncacheable key, point the handle at
the stack buffer `qvbuf_` (never null, `cacheable_` untouched).  Returns the
handle, the updated current tier, and the new `cacheable_` flag. -/
def AlignmentCacheIface.beginAlignHandle (i : AlignmentCacheIface) (qk : QKey) :
    Option QvHandle × AlignmentCache × Bool :=
  if qk.cacheable then
    match AlignmentCache.add i.current qk with
    | (c1, true, added) => (some (QvHandle.cur qk), c1, added)
    | (c1, false, added) => (none, c1, added)
  else (some QvHandle.buf, i.current, i.cacheableFlag)

/-- `AlignmentCacheIface::beginAlign`: encode the key; on a cacheable key that
hits the current tier, copy the found payload to the out parameter, reset the
session and return 1; otherwise run the add-or-buffer step; if the handle is
null, reset the session and return -1; else reset the payload through the
handle and return 0.  Result: `(new session state, return code, out
parameter)`. -/
def AlignmentCacheIface.beginAlign (i : AlignmentCacheIface) (seq qual : List Nat) :
    AlignmentCacheIface × Int × Option QVal :=
  let qk := (QKey.init seq).1
  let i1 := { i with qk := qk }
  if qk.cacheable && (AlignmentCache.query i1.current qk).isSome then
    (AlignmentCacheIface.resetRead i1, 1, AlignmentCache.query i1.current qk)
  else
    match AlignmentCacheIface.beginAlignHandle i1 qk with
    | (none, c1, added) =>
      (AlignmentCacheIface.resetRead { i1 with current := c1, cacheableFlag := added },
        -1, none)
    | (some h, c1, added) =>
      (AlignmentCacheIface.writeHandle
        { i1 with current := c1, cacheableFlag := added, qv := some h } h QVal.reset,
        0, none)

/-- The payload returned by `finishAlign`: the session payload, first
initialized to `(0, 0, 0)` when invalid (`if(!qv_->valid()) qv_->init(0,0,0)`). -/
def AlignmentCacheIface.finishPayload (i : AlignmentCacheIface) (h : QvHandle) : QVal :=
  if (i.readHandle h).valid then i.readHandle h
  else { i := 0, rangen := 0, eltn := 0 }

/-- The session state after `finishAlign`'s payload-initialization step: the
`(0, 0, 0)` value is written back through the handle when the payload was
invalid. -/
def AlignmentCacheIface.finishInit (i : AlignmentCacheIface) (h : QvHandle) :
    AlignmentCacheIface :=
  if (i.readHandle h).valid then i
  else i.writeHandle h { i := 0, rangen := 0, eltn := 0 }

/-- `AlignmentCacheIface::finishAlign`: initialize the payload if invalid;
if the session key is cacheable, promote the entry with `clearCopy` into the
first non-null across-read tier (`local_` first, then `shared_`), stopping
after one; reset the session and return a copy of the final payload.  (The
C++ dereferences `qv_`; a null handle is modelled as a no-op returning the
invalid payload.) -/
def AlignmentCacheIface.finishAlign (i : AlignmentCacheIface) :
    AlignmentCacheIface × QVal :=
  match i.qv with
  | none => (i, QVal.reset)
  | some h =>
    let v1 := AlignmentCacheIface.finishPayload i h
    let i1 := AlignmentCacheIface.finishInit i h
    let i2 :=
      if i.qk.cacheable then
        match i1.localCache with
        | some lc =>
          { i1 with localCache := some (AlignmentCache.clearCopy lc i.qk v1 i1.current).1 }
        | none =>
          match i1.sharedCache with
          | some sc =>
            { i1 with sharedCache := some (AlignmentCache.clearCopy sc i.qk v1 i1.current).1 }
          | none => i1
      else i1
    (AlignmentCacheIface.resetRead i2, v1)

/-- `AlignmentCacheIface::nextRead`: clear the current-read tier and reset the
session. -/
def AlignmentCacheIface.nextRead (i : AlignmentCacheIface) : AlignmentCacheIface :=
  AlignmentCacheIface.resetRead { i with current := AlignmentCache.clear i.current }

/-- `AlignmentCacheIface::addOnTheFly`: encode the reference sequence, delegate
to the current tier's `addOnTheFly` on the session payload, and on success
bump the running counters by `1` and `botf - topf`.  (The C++ asserts
`aligning()`; a null handle is modelled as a failing no-op.) -/
def AlignmentCacheIface.addOnTheFly (i : AlignmentCacheIface) (rfseq : List Nat)
    (topf botf : Nat) : AlignmentCacheIface × Bool :=
  match i.qv with
  | none => (i, false)
  | some h =>
    let sak := (QKey.init rfseq).1
    let r := AlignmentCache.addOnTheFly i.current (i.readHandle h) sak topf botf
    if r.2.2 then
      let i1 := AlignmentCacheIface.writeHandle { i with current := r.1 } h r.2.1
      ({ i1 with rangen := i1.rangen + 1, eltsn := i1.eltsn + (botf - topf) }, true)
    else ({ i with current := r.1 }, false)

theorem assocFind_append_self {α : Type} (m : List (QKey × α)) (k : QKey) (v : α)
    (h : assocFind m k = none) : assocFind (m ++ [(k, v)]) k = some v := by
  induction m with
  | nil => simp [assocFind]
  | cons p rest ih =>
    by_cases hp : p.1 = k
    · simp [assocFind, hp] at h
    · simp only [assocFind, if_neg hp] at h
      simp only [List.cons_append, assocFind, if_neg hp]
      exact ih h

theorem assocFind_set_self {α : Type} (m : List (QKey × α)) (k : QKey) (v : α)
    (h : (assocFind m k).isSome = true) : assocFind (assocSet m k v) k = some v := by
  induction m with
  | nil => simp [assocFind] at h
  | cons p rest ih =>
    by_cases hp : p.1 = k
    · simp [assocSet, hp, assocFind]
    · simp only [assocFind, if_neg hp] at h
      simp only [assocSet, if_neg hp, assocFind, if_neg hp]
      exact ih h

/-- C5: `beginAlign` returns 1 (Hit) exactly when the encoded key is cacheable
and the current tier's query finds it - in which case the found payload is the
out parameter and the session is reset; it returns -1 (OOM) exactly when the
payload handle is null after the add-or-buffer step; in every other case it
resets the payload through the live handle and returns 0 (Miss). -/
theorem C5_beginAlign (i : AlignmentCacheIface) (seq qual : List Nat) :
    ((AlignmentCacheIface.beginAlign i seq qual).2.1 = 1 ↔
      ((QKey.init seq).1.cacheable = true ∧
        (AlignmentCache.query i.current (QKey.init seq).1).isSome = true)) ∧
    ((AlignmentCacheIface.beginAlign i seq qual).2.1 = 1 →
      (AlignmentCacheIface.beginAlign i seq qual).2.2 =
        AlignmentCache.query i.current (QKey.init seq).1 ∧
      (AlignmentCacheIface.beginAlign i seq qual).1.qv = none ∧
      (AlignmentCacheIface.beginAlign i seq qual).1.rangen = 0 ∧
      (AlignmentCacheIface.beginAlign i seq qual).1.eltsn = 0) ∧
    ((AlignmentCacheIface.beginAlign i seq qual).2.1 = -1 ↔
      (¬((QKey.init seq).1.cacheable = true ∧
          (AlignmentCache.query i.current (QKey.init seq).1).isSome = true) ∧
        (AlignmentCacheIface.beginAlignHandle i (QKey.init seq).1).1 = none)) ∧
    ((AlignmentCacheIface.beginAlign i seq qual).2.1 = -1 →
      (AlignmentCacheIface.beginAlign i seq qual).1.qv = none ∧
      (AlignmentCacheIface.beginAlign i seq qual).1.rangen = 0 ∧
      (AlignmentCacheIface.beginAlign i seq qual).1.eltsn = 0) ∧
    ((AlignmentCacheIface.beginAlign i seq qual).2.1 ≠ 1 →
      (AlignmentCacheIface.beginAlign i seq qual).2.1 ≠ -1 →
      (AlignmentCacheIface.beginAlign i seq qual).2.1 = 0 ∧
      ∃ h, (AlignmentCacheIface.beginAlign i seq qual).1.qv = some h ∧
        (AlignmentCacheIface.beginAlign i seq qual).1.readHandle h = QVal.reset) := by
  by_cases hcache : (QKey.init seq).1.cacheable = true
  · rcases hq : AlignmentCache.query i.current (QKey.init seq).1 with _ | v
    · -- cacheable, miss in the current tier
      have hfind : assocFind i.current.qmap (QKey.init seq).1 = none := hq
      by_cases hp : i.current.pool = 0
      · -- pool exhausted: the add yields a null handle
        have hadd : AlignmentCache.add i.current (QKey.init seq).1 =
            (i.current, false, false) := by
          unfold AlignmentCache.add
          rw [hfind, if_pos hp]
        have hba : AlignmentCacheIface.beginAlign i seq qual =
            (AlignmentCacheIface.resetRead
              { i with
                qk := (QKey.init seq).1
                current := i.current
                cacheableFlag := false }, -1, none) := by
          unfold AlignmentCacheIface.beginAlign AlignmentCacheIface.beginAlignHandle
          simp [hcache, hq, hadd]
        have hbh : (AlignmentCacheIface.beginAlignHandle i (QKey.init seq).1).1 = none := by
          unfold AlignmentCacheIface.beginAlignHandle
          simp [hcache, hadd]
        rw [hba]
        refine ⟨by simp [hq], by simp, ?_, ?_, by simp⟩
        · simp [hbh, hq, AlignmentCacheIface.resetRead]
        · intro _
          simp [AlignmentCacheIface.resetRead]
      · -- room in the pool: a fresh node is created and its payload reset
        have hadd : AlignmentCache.add i.current (QKey.init seq).1 =
            ({ i.current with
                qmap := i.current.qmap ++ [((QKey.init seq).1, QVal.reset)]
                pool := i.current.pool - 1 }, true, true) := by
          unfold AlignmentCache.add
          rw [hfind, if_neg hp]
        have hba : AlignmentCacheIface.beginAlign i seq qual =
            (AlignmentCacheIface.writeHandle
              { i with
                qk := (QKey.init seq).1
                current := { i.current with
                  qmap := i.current.qmap ++ [((QKey.init seq).1, QVal.reset)]
                  pool := i.current.pool - 1 }
                cacheableFlag := true
                qv := some (QvHandle.cur (QKey.init seq).1) }
              (QvHandle.cur (QKey.init seq).1) QVal.reset, 0, none) := by
          unfold AlignmentCacheIface.beginAlign AlignmentCacheIface.beginAlignHandle
          simp [hcache, hq, hadd]
        have hbh : (AlignmentCacheIface.beginAlignHandle i (QKey.init seq).1).1 =
            some (QvHandle.cur (QKey.init seq).1) := by
          unfold AlignmentCacheIface.beginAlignHandle
          simp [hcache, hadd]
        rw [hba]
        refine ⟨by simp [hq], by simp, ?_, by simp [AlignmentCacheIface.writeHandle], ?_⟩
        · simp [hbh, AlignmentCacheIface.writeHandle]
        · intro _ _
          refine ⟨rfl, QvHandle.cur (QKey.init seq).1, ?_, ?_⟩
          · simp [AlignmentCacheIface.writeHandle]
          · have hsome : (assocFind
                (i.current.qmap ++ [((QKey.init seq).1, QVal.reset)])
                (QKey.init seq).1).isSome = true := by
              rw [assocFind_append_self _ _ _ hfind]
              rfl
            simp only [AlignmentCacheIface.writeHandle, AlignmentCacheIface.readHandle]
            rw [assocFind_set_self _ _ _ hsome]
            rfl
    · -- cacheable, hit in the current tier
      have hba : AlignmentCacheIface.beginAlign i seq qual =
          (AlignmentCacheIface.resetRead { i with qk := (QKey.init seq).1 },
            1, some v) := by
        unfold AlignmentCacheIface.beginAlign
        simp [hcache, hq]
      rw [hba]
      refine ⟨by simp [hcache, hq], ?_, ?_, by simp, by simp⟩
      · intro _
        simp [hq, AlignmentCacheIface.resetRead]
      · simp [hcache]
  · -- uncacheable: the handle is pointed at the stack buffer
    have hcf : (QKey.init seq).1.cacheable = false := by
      revert hcache
      cases (QKey.init seq).1.cacheable <;> simp
    have hba : AlignmentCacheIface.beginAlign i seq qual =
        (AlignmentCacheIface.writeHandle
          { i with
            qk := (QKey.init seq).1
            current := i.current
            cacheableFlag := i.cacheableFlag
            qv := some QvHandle.buf }
          QvHandle.buf QVal.reset, 0, none) := by
      unfold AlignmentCacheIface.beginAlign AlignmentCacheIface.beginAlignHandle
      simp [hcf]
    have hbh : (AlignmentCacheIface.beginAlignHandle i (QKey.init seq).1).1 =
        some QvHandle.buf := by
      unfold AlignmentCacheIface.beginAlignHandle
      simp [hcf]
    rw [hba]
    refine ⟨by simp [hcf], by simp, by simp [hbh], by simp, ?_⟩
    intro _ _
    exact ⟨rfl, QvHandle.buf, rfl, rfl⟩

/-- C9: for every input sequence whose encoded key is not cacheable,
`beginAlign` points the session handle at the stack-resident buffer `qvbuf_`,
which is never null, and returns 0 (Miss) - never -1 (OOM) - regardless of
pool state. -/
theorem C9_uncacheable_no_oom (i : AlignmentCacheIface) (seq qual : List Nat)
    (h : (QKey.init seq).1.cacheable = false) :
    (AlignmentCacheIface.beginAlign i seq qual).2.1 = 0 ∧
    (AlignmentCacheIface.beginAlign i seq qual).2.1 ≠ -1 ∧
    (AlignmentCacheIface.beginAlign i seq qual).1.qv = some QvHandle.buf := by
  have hba : AlignmentCacheIface.beginAlign i seq qual =
      (AlignmentCacheIface.writeHandle
        { i with
          qk := (QKey.init seq).1
          current := i.current
          cacheableFlag := i.cacheableFlag
          qv := some QvHandle.buf }
        QvHandle.buf QVal.reset, 0, none) := by
    unfold AlignmentCacheIface.beginAlign AlignmentCacheIface.beginAlignHandle
    simp [h]
  rw [hba]
  exact ⟨rfl, show (0 : Int) ≠ -1 by decide, rfl⟩

theorem finishInit_fields (i : AlignmentCacheIface) (h : QvHandle) :
    (AlignmentCacheIface.finishInit i h).localCache = i.localCache ∧
    (AlignmentCacheIface.finishInit i h).sharedCache = i.sharedCache ∧
    (AlignmentCacheIface.finishInit i h).qk = i.qk := by
  unfold AlignmentCacheIface.finishInit AlignmentCacheIface.writeHandle
  by_cases hv : (i.readHandle h).valid = true
  · simp [hv]
  · cases h <;> simp [hv]

/-- C6: `finishAlign` (on a live session) first initializes the session
payload to `(0, 0, 0)` if it is invalid; then, when the session key is
cacheable, applies `clearCopy` to exactly one across-read tier - the first
non-null of `local_` then `shared_` - and to no other tier (the current tier
receives at most the payload write); finally it resets the session and
returns a copy of the final payload. -/
theorem C6_finishAlign (i : AlignmentCacheIface) (h : QvHandle)
    (hqv : i.qv = some h) :
    (AlignmentCacheIface.finishAlign i).2 = AlignmentCacheIface.finishPayload i h ∧
    (AlignmentCacheIface.finishAlign i).1.qv = none ∧
    (AlignmentCacheIface.finishAlign i).1.rangen = 0 ∧
    (AlignmentCacheIface.finishAlign i).1.eltsn = 0 ∧
    (AlignmentCacheIface.finishAlign i).1.current =
      (AlignmentCacheIface.finishInit i h).current ∧
    (i.qk.cacheable = true →
      (∀ lc, i.localCache = some lc →
        (AlignmentCacheIface.finishAlign i).1.localCache =
          some (AlignmentCache.clearCopy lc i.qk
            (AlignmentCacheIface.finishPayload i h)
            (AlignmentCacheIface.finishInit i h).current).1 ∧
        (AlignmentCacheIface.finishAlign i).1.sharedCache = i.sharedCache) ∧
      (i.localCache = none → ∀ sc, i.sharedCache = some sc →
        (AlignmentCacheIface.finishAlign i).1.sharedCache =
          some (AlignmentCache.clearCopy sc i.qk
            (AlignmentCacheIface.finishPayload i h)
            (AlignmentCacheIface.finishInit i h).current).1 ∧
        (AlignmentCacheIface.finishAlign i).1.localCache = none)) ∧
    (i.qk.cacheable = false →
      (AlignmentCacheIface.finishAlign i).1.localCache = i.localCache ∧
      (AlignmentCacheIface.finishAlign i).1.sharedCache = i.sharedCache) := by
  obtain ⟨hl, hs, hqk2⟩ := finishInit_fields i h
  by_cases hc : i.qk.cacheable = true
  · rcases hlc : i.localCache with _ | lc
    · rcases hsc : i.sharedCache with _ | sc
      · -- cacheable, no across-read tier at all
        have hfa : AlignmentCacheIface.finishAlign i =
            (AlignmentCacheIface.resetRead (AlignmentCacheIface.finishInit i h),
              AlignmentCacheIface.finishPayload i h) := by
          unfold AlignmentCacheIface.finishAlign
          rw [hqv]
          simp [hc, hl.trans hlc, hs.trans hsc]
        rw [hfa]
        refine ⟨rfl, rfl, rfl, rfl, rfl, ?_, ?_⟩
        · intro _
          refine ⟨?_, ?_⟩
          · intro lc hlc2
            cases hlc2
          · intro _ sc hsc2
            cases hsc2
        · intro hcf
          rw [hcf] at hc
          exact Bool.noConfusion hc
      · -- cacheable, only the shared tier exists: it receives the clearCopy
        have hfa : AlignmentCacheIface.finishAlign i =
            (AlignmentCacheIface.resetRead
              { AlignmentCacheIface.finishInit i h with
                sharedCache := some (AlignmentCache.clearCopy sc i.qk
                  (AlignmentCacheIface.finishPayload i h)
                  (AlignmentCacheIface.finishInit i h).current).1 },
              AlignmentCacheIface.finishPayload i h) := by
          unfold AlignmentCacheIface.finishAlign
          rw [hqv]
          simp [hc, hl.trans hlc, hs.trans hsc]
        rw [hfa]
        refine ⟨rfl, rfl, rfl, rfl, rfl, ?_, ?_⟩
        · intro _
          refine ⟨?_, ?_⟩
          · intro lc hlc2
            cases hlc2
          · intro _ sc2 hsc2
            cases hsc2
            exact ⟨rfl, hl.trans hlc⟩
        · intro hcf
          rw [hcf] at hc
          exact Bool.noConfusion hc
    · -- cacheable, the local tier exists: it alone receives the clearCopy
      have hfa : AlignmentCacheIface.finishAlign i =
          (AlignmentCacheIface.resetRead
            { AlignmentCacheIface.finishInit i h with
              localCache := some (AlignmentCache.clearCopy lc i.qk
                (AlignmentCacheIface.finishPayload i h)
                (AlignmentCacheIface.finishInit i h).current).1 },
            AlignmentCacheIface.finishPayload i h) := by
        unfold AlignmentCacheIface.finishAlign
        rw [hqv]
        simp [hc, hl.trans hlc]
      rw [hfa]
      refine ⟨rfl, rfl, rfl, rfl, rfl, ?_, ?_⟩
      · intro _
        refine ⟨?_, ?_⟩
        · intro lc2 hlc2
          cases hlc2
          exact ⟨rfl, hs⟩
        · intro hnone _ _
          cases hnone
      · intro hcf
        rw [hcf] at hc
        exact Bool.noConfusion hc
  · -- uncacheable key: no promotion at all
    have hcf : i.qk.cacheable = false := by
      revert hc
      cases i.qk.cacheable <;> simp
    have hfa : AlignmentCacheIface.finishAlign i =
        (AlignmentCacheIface.resetRead (AlignmentCacheIface.finishInit i h),
          AlignmentCacheIface.finishPayload i h) := by
      unfold AlignmentCacheIface.finishAlign
      rw [hqv]
      simp [hcf]
    rw [hfa]
    refine ⟨rfl, rfl, rfl, rfl, rfl, ?_, ?_⟩
    · intro htrue
      rw [htrue] at hcf
      cases hcf
    · intro _
      exact ⟨hl, hs⟩

/-- The representation invariant of `AlignmentCacheIface::repOk` restricted to
the session counters: whenever no session is live (`qv_` is null), the running
counters `rangen_` and `eltsn_` are both zero. -/
def sessionInv (i : AlignmentCacheIface) : Prop :=
  i.qv = none → i.rangen = 0 ∧ i.eltsn = 0

/-- The payload handle of the session is untouched by `addOnTheFly`. -/
theorem addOnTheFly_qv (i : AlignmentCacheIface) (rfseq : List Nat)
    (topf botf : Nat) :
    (AlignmentCacheIface.addOnTheFly i rfseq topf botf).1.qv = i.qv := by
  unfold AlignmentCacheIface.addOnTheFly
  rcases hqv2 : i.qv with _ | h
  · exact hqv2
  · by_cases hok : (AlignmentCache.addOnTheFly i.current
        (i.readHandle h) (QKey.init rfseq).1 topf botf).2.2 = true
    · cases h <;> simp [hok, AlignmentCacheIface.writeHandle]
    · simp only [Bool.not_eq_true] at hok
      simp [hok]

/-- `beginAlign` either ends in a `resetRead` state returning Hit or OOM, or
returns Miss with a live handle. -/
theorem beginAlign_state (i : AlignmentCacheIface) (seq qual : List Nat) :
    ((AlignmentCacheIface.beginAlign i seq qual).1.qv = none ∧
      (AlignmentCacheIface.beginAlign i seq qual).1.rangen = 0 ∧
      (AlignmentCacheIface.beginAlign i seq qual).1.eltsn = 0 ∧
      ((AlignmentCacheIface.beginAlign i seq qual).2.1 = 1 ∨
        (AlignmentCacheIface.beginAlign i seq qual).2.1 = -1)) ∨
    ((AlignmentCacheIface.beginAlign i seq qual).2.1 = 0 ∧
      (AlignmentCacheIface.beginAlign i seq qual).1.qv ≠ none) := by
  unfold AlignmentCacheIface.beginAlign
  by_cases hcond : ((QKey.init seq).1.cacheable &&
      (AlignmentCache.query { i with qk := (QKey.init seq).1 }.current
        (QKey.init seq).1).isSome) = true
  · rw [if_pos hcond]
    exact Or.inl ⟨rfl, rfl, rfl, Or.inl rfl⟩
  · rw [if_neg hcond]
    rcases hbh : AlignmentCacheIface.beginAlignHandle
        { i with qk := (QKey.init seq).1 } (QKey.init seq).1 with ⟨hopt, c1, added⟩
    rcases hopt with _ | h
    · exact Or.inl ⟨rfl, rfl, rfl, Or.inr rfl⟩
    · refine Or.inr ⟨rfl, ?_⟩
      cases h <;> simp [AlignmentCacheIface.writeHandle]

/-- C10: the session invariant (null handle implies zero counters, from
`repOk`) is maintained by `beginAlign`, `finishAlign`, `nextRead` and
`addOnTheFly`, and every path that ends a session - `beginAlign` returning
Hit (1) or OOM (-1), `finishAlign` on a live session, `nextRead` -
re-establishes it via `resetRead` (null handle and zero counters). -/
theorem C10_session_invariant (i : AlignmentCacheIface)
    (seq qual rfseq : List Nat) (topf botf : Nat) (hinv : sessionInv i) :
    sessionInv (AlignmentCacheIface.beginAlign i seq qual).1 ∧
    sessionInv (AlignmentCacheIface.finishAlign i).1 ∧
    sessionInv (AlignmentCacheIface.nextRead i) ∧
    sessionInv (AlignmentCacheIface.addOnTheFly i rfseq topf botf).1 ∧
    ((AlignmentCacheIface.beginAlign i seq qual).2.1 = 1 ∨
      (AlignmentCacheIface.beginAlign i seq qual).2.1 = -1 →
      (AlignmentCacheIface.beginAlign i seq qual).1.qv = none ∧
      (AlignmentCacheIface.beginAlign i seq qual).1.rangen = 0 ∧
      (AlignmentCacheIface.beginAlign i seq qual).1.eltsn = 0) ∧
    (AlignmentCacheIface.aligning i = true →
      (AlignmentCacheIface.finishAlign i).1.qv = none ∧
      (AlignmentCacheIface.finishAlign i).1.rangen = 0 ∧
      (AlignmentCacheIface.finishAlign i).1.eltsn = 0) ∧
    ((AlignmentCacheIface.nextRead i).qv = none ∧
      (AlignmentCacheIface.nextRead i).rangen = 0 ∧
      (AlignmentCacheIface.nextRead i).eltsn = 0) := by
  have hnext : (AlignmentCacheIface.nextRead i).qv = none ∧
      (AlignmentCacheIface.nextRead i).rangen = 0 ∧
      (AlignmentCacheIface.nextRead i).eltsn = 0 := by
    simp [AlignmentCacheIface.nextRead, AlignmentCacheIface.resetRead]
  have hfin : ∀ h, i.qv = some h →
      (AlignmentCacheIface.finishAlign i).1.qv = none ∧
      (AlignmentCacheIface.finishAlign i).1.rangen = 0 ∧
      (AlignmentCacheIface.finishAlign i).1.eltsn = 0 := by
    intro h hqv
    unfold AlignmentCacheIface.finishAlign
    rw [hqv]
    simp [AlignmentCacheIface.resetRead]
  refine ⟨?_, ?_, ?_, ?_, ?_, ?_, hnext⟩
  · rcases beginAlign_state i seq qual with ⟨h1, h2, h3, _⟩ | ⟨_, h2⟩
    · intro _
      exact ⟨h2, h3⟩
    · intro habs
      exact absurd habs h2
  · rcases hqv : i.qv with _ | h
    · have : AlignmentCacheIface.finishAlign i = (i, QVal.reset) := by
        unfold AlignmentCacheIface.finishAlign
        rw [hqv]
      rw [this]
      exact hinv
    · intro _
      exact ⟨(hfin h hqv).2.1, (hfin h hqv).2.2⟩
  · intro _
    exact ⟨hnext.2.1, hnext.2.2⟩
  · intro habs
    have hq0 : i.qv = none := by
      rw [← addOnTheFly_qv i rfseq topf botf]
      exact habs
    have : AlignmentCacheIface.addOnTheFly i rfseq topf botf = (i, false) := by
      unfold AlignmentCacheIface.addOnTheFly
      rw [hq0]
    rw [this]
    exact hinv hq0
  · intro hcode
    rcases beginAlign_state i seq qual with ⟨h1, h2, h3, _⟩ | ⟨h0, _⟩
    · exact ⟨h1, h2, h3⟩
    · rcases hcode with hc | hc <;> rw [h0] at hc <;> exact absurd hc (by decide)
  · intro halign
    rcases hqv : i.qv with _ | h
    · rw [AlignmentCacheIface.aligning, hqv] at halign
      cases halign
    · exact hfin h hqv

/-- A concrete idle session over an empty current tier. -/
def iface0 : AlignmentCacheIface :=
  { qk := { seq := 0, len := badLen }, qv := none, qvbuf := QVal.reset,
    cacheableFlag := false, rangen := 0, eltsn := 0, current := cache0,
    localCache := none, sharedCache := none }

/-- A concrete live session on key `⟨27, 4⟩` with a local across-read tier. -/
def ifaceLive : AlignmentCacheIface :=
  { qk := { seq := 27, len := 4 }, qv := some (QvHandle.cur { seq := 27, len := 4 }),
    qvbuf := QVal.reset, cacheableFlag := true, rangen := 0, eltsn := 0,
    current := cacheWithKey, localCache := some cache0, sharedCache := none }

/-- Witness for C5 at a concrete idle session and the sequence `ACGT`:
a cacheable miss yields Miss (0) with a live, reset payload handle; the
Hit characterization holds there as well. -/
theorem C5_beginAlign_witness :
    ((AlignmentCacheIface.beginAlign iface0 [0,1,2,3] []).2.1 = 0 ∧
      ∃ h, (AlignmentCacheIface.beginAlign iface0 [0,1,2,3] []).1.qv = some h ∧
        (AlignmentCacheIface.beginAlign iface0 [0,1,2,3] []).1.readHandle h =
          QVal.reset) ∧
    ((AlignmentCacheIface.beginAlign iface0 [0,1,2,3] []).2.1 = 1 ↔
      ((QKey.init [0,1,2,3]).1.cacheable = true ∧
        (AlignmentCache.query iface0.current (QKey.init [0,1,2,3]).1).isSome = true)) :=
  ⟨(C5_beginAlign iface0 [0,1,2,3] []).2.2.2.2 (by decide) (by decide),
   (C5_beginAlign iface0 [0,1,2,3] []).1⟩

/-- Witness for C6 at the concrete live session: the returned payload is the
initialized one, the local tier receives the `clearCopy`, the shared tier is
untouched, and the session ends reset. -/
theorem C6_finishAlign_witness :
    (AlignmentCacheIface.finishAlign ifaceLive).2 =
      AlignmentCacheIface.finishPayload ifaceLive
        (QvHandle.cur { seq := 27, len := 4 }) ∧
    (AlignmentCacheIface.finishAlign ifaceLive).1.qv = none ∧
    (AlignmentCacheIface.finishAlign ifaceLive).1.localCache =
      some (AlignmentCache.clearCopy cache0 ifaceLive.qk
        (AlignmentCacheIface.finishPayload ifaceLive
          (QvHandle.cur { seq := 27, len := 4 }))
        (AlignmentCacheIface.finishInit ifaceLive
          (QvHandle.cur { seq := 27, len := 4 })).current).1 ∧
    (AlignmentCacheIface.finishAlign ifaceLive).1.sharedCache =
      ifaceLive.sharedCache := by
  have t := C6_finishAlign ifaceLive (QvHandle.cur { seq := 27, len := 4 }) rfl
  have h6 := (t.2.2.2.2.2.1 (by decide)).1 cache0 rfl
  exact ⟨t.1, t.2.1, h6.1, h6.2⟩

/-- Witness for C9 at a concrete session and the sequence `[N]`: Miss, never
OOM, handle at the buffer. -/
theorem C9_uncacheable_no_oom_witness :
    (AlignmentCacheIface.beginAlign iface0 [4] []).2.1 = 0 ∧
    (AlignmentCacheIface.beginAlign iface0 [4] []).2.1 ≠ -1 ∧
    (AlignmentCacheIface.beginAlign iface0 [4] []).1.qv = some QvHandle.buf :=
  C9_uncacheable_no_oom iface0 [4] [] (by decide)

/-- Witness for C10 at the concrete idle session. -/
theorem C10_session_invariant_witness :
    sessionInv (AlignmentCacheIface.nextRead iface0) ∧
    sessionInv (AlignmentCacheIface.finishAlign iface0).1 ∧
    sessionInv (AlignmentCacheIface.beginAlign iface0 [0,1,2,3] []).1 :=
  ⟨(C10_session_invariant iface0 [0,1,2,3] [] [0] 1 2
      (fun _ => ⟨rfl, rfl⟩)).2.2.1,
   (C10_session_invariant iface0 [0,1,2,3] [] [0] 1 2
      (fun _ => ⟨rfl, rfl⟩)).2.1,
   (C10_session_invariant iface0 [0,1,2,3] [] [0] 1 2
      (fun _ => ⟨rfl, rfl⟩)).1⟩
